import Mathlib

/-!
Shallow embedding of the upgrade-group planner from
`zaza/openstack/utilities/upgrade_utils.py` and (modelled from the spec)
the process validator from `zaza/openstack/utilities/generic.py`.

Python dicts are modelled as association lists (insertion-ordered, keys
unique — the dict invariant appears as a `Nodup` hypothesis where needed).
Python exceptions are modelled with `Except`.
-/

namespace Zaza

/-- Snapshot of one application's status, as consumed by the planner.
`charm` is the charm URL (`app_config['charm']`), `subordinateTo` the
`subordinate-to` list, and `configOptions` the keys of
`zaza.model.get_application_config(app)` (an external lookup, modelled as
part of the snapshot). -/
structure AppConfig where
  charm : String
  subordinateTo : List String
  configOptions : List String
deriving DecidableEq, Repr

/-- A filter predicate `(app, app_config) -> bool`; `true` means EXCLUDE.
The Python filters also receive `model_name`, which none of the pure
filters use, so it is dropped here. -/
abbrev AppFilter := String → AppConfig → Bool

/-- `SERVICE_GROUPS` from `upgrade_utils.py`. -/
def SERVICE_GROUPS : List (String × List String) :=
  [("Database Services", ["percona-cluster", "mysql-innodb-cluster"]),
   ("Stateful Services", ["rabbitmq-server", "ceph-mon"]),
   ("Core Identity", ["keystone"]),
   ("Control Plane",
    ["aodh", "barbican", "ceilometer", "ceph-fs",
     "ceph-radosgw", "cinder", "designate",
     "designate-bind", "glance", "gnocchi", "heat", "manila",
     "manila-generic", "neutron-api", "neutron-gateway", "placement",
     "nova-cloud-controller", "openstack-dashboard"]),
   ("Data Plane",
    ["nova-compute", "ceph-osd",
     "swift-proxy", "swift-storage"])]

/-- `UPGRADE_EXCLUDE_LIST` from `upgrade_utils.py`. -/
def UPGRADE_EXCLUDE_LIST : List String := ["rabbitmq-server", "percona-cluster"]

/-- Python `str.split(c)` on a list of characters: always returns at least
one (possibly empty) piece. -/
def splitOnChar (c : Char) : List Char → List (List Char)
  | [] => [[]]
  | x :: xs =>
    match splitOnChar c xs with
    | [] => [[x]]
    | h :: t => if x = c then [] :: h :: t else (x :: h) :: t

/-- Python `s.split(c)[-1]`: the last piece of the split (total here; the
`[-1]` indexing itself is modelled by `extract_py` below). -/
def lastOfSplit (c : Char) (l : List Char) : List Char :=
  (splitOnChar c l).getLastD []

/-- Python `re.sub(r'-[0-9]+$', '', s)`: if the string ends in `-` followed
by one or more ASCII digits, that suffix is removed; otherwise the string
is unchanged. -/
def stripRevisionSuffix (l : List Char) : List Char :=
  let ds := l.reverse.takeWhile Char.isDigit
  let rest := l.reverse.dropWhile Char.isDigit
  if ds.isEmpty then l
  else if rest.head? = some '-' then rest.tail.reverse
  else l

/-- `stripRevisionSuffix` acting on an already-reversed character list. -/
def revStrip (r : List Char) : List Char :=
  let ds := r.takeWhile Char.isDigit
  let rest := r.dropWhile Char.isDigit
  if ds.isEmpty then r
  else if rest.head? = some '-' then rest.tail
  else r

/-- `extract_charm_name_from_url` from `upgrade_utils.py`:
`re.sub(r'-[0-9]+$', '', charm_url.split('/')[-1]).split(':')[-1]`. -/
def extract_charm_name_from_url (charm_url : String) : String :=
  ⟨lastOfSplit ':' (stripRevisionSuffix (lastOfSplit '/' charm_url.data))⟩

/-- The charm-name computation in the order the spec describes it: first
the regex strip of a trailing `-<digits>`, then the split on the last `:`,
then on the last `/`. Stated from the spec's words, to be compared with
`extract_charm_name_from_url`, which follows the code's order. -/
def extract_charm_name_spec_order (charm_url : String) : String :=
  ⟨lastOfSplit '/' (lastOfSplit ':' (stripRevisionSuffix charm_url.data))⟩

/-- The Python computation with its fallible operations explicit: `None`
input raises (`none`), and each `split(c)[-1]` is a `getLast?` that would
fail on an empty split result. -/
def extract_py (charm_url : Option String) : Option String := do
  let s ← charm_url
  let tail ← (splitOnChar '/' s.data).getLast?
  let name ← (splitOnChar ':' (stripRevisionSuffix tail)).getLast?
  pure ⟨name⟩

/-- `_filter_subordinates`: exclude when `subordinate-to` is non-empty. -/
def _filter_subordinates : AppFilter := fun _app app_config =>
  !app_config.subordinateTo.isEmpty

/-- `_filter_openstack_upgrade_list`: exclude when the app name or its
extracted charm name is on `UPGRADE_EXCLUDE_LIST`. -/
def _filter_openstack_upgrade_list : AppFilter := fun app app_config =>
  let charm_name := extract_charm_name_from_url app_config.charm
  decide (app ∈ UPGRADE_EXCLUDE_LIST) || decide (charm_name ∈ UPGRADE_EXCLUDE_LIST)

/-- `_filter_non_openstack_services`: exclude when the app's config has
neither `openstack-origin` nor `source`. -/
def _filter_non_openstack_services : AppFilter := fun _app app_config =>
  let src_options := ["openstack-origin", "source"]
  (src_options.filter (fun x => decide (x ∈ app_config.configOptions))).isEmpty

/-- A Python value passed as `extra_filters`: `None`, a list, a callable,
or anything else (carrying only its truthiness). -/
inductive PyVal (α : Type) where
  | none
  | list (fs : List α)
  | func (f : α)
  | other (truthy : Bool)

/-- Python truthiness of a `PyVal` (an empty list is falsy). -/
def PyVal.isTruthy {α : Type} : PyVal α → Bool
  | .none => false
  | .list fs => !fs.isEmpty
  | .func _ => true
  | .other t => t

/-- `_apply_extra_filters` from `upgrade_utils.py`; the `RuntimeError` is an
`Except.error` carrying the Python message. -/
def _apply_extra_filters (filters : List AppFilter) (extra_filters : PyVal AppFilter) :
    Except String (List AppFilter) :=
  if extra_filters.isTruthy then
    match extra_filters with
    | .list fs => .ok (filters ++ fs)
    | .func f => .ok (filters ++ [f])
    | _ => .error "extra_filters should be a list of callables"
  else
    .ok filters

/-- `_include_app`: evaluate filters in order, first `true` excludes. -/
def _include_app (app : String) (app_config : AppConfig) : List AppFilter → Bool
  | [] => true
  | filt :: rest =>
    if filt app app_config then false else _include_app app app_config rest

/-- `get_upgrade_candidates` with the external status snapshot passed in as
an association list. -/
def get_upgrade_candidates (status : List (String × AppConfig))
    (filters : List AppFilter) : List (String × AppConfig) :=
  status.filter (fun p => _include_app p.1 p.2 filters)

/-- One named phase of `_build_service_groups`: the phase name paired with
the names of the applications whose extracted charm name is on the phase's
charm list, in application order. -/
def groupOf (applications : List (String × AppConfig)) (pc : String × List String) :
    String × List String :=
  (pc.1, (applications.filter (fun p =>
    decide (extract_charm_name_from_url p.2.charm ∈ pc.2))).map Prod.fst)

/-- Whether an application's extracted charm name is on some named group's
charm list (the complement of the sweep-up condition). -/
def inAnyGroup (p : String × AppConfig) : Bool :=
  SERVICE_GROUPS.any (fun pc => decide (extract_charm_name_from_url p.2.charm ∈ pc.2))

/-- `_build_service_groups` from `upgrade_utils.py`: collect each phase in
declaration order, compute the `vhash` of collected names, sweep up the
rest, and sort every group. Python's `list.sort()` on strings is modelled
by `insertionSort (· ≤ ·)`: `≤` on `String` is total and antisymmetric, so
the sorted permutation is unique and the choice of algorithm is
immaterial. -/
def _build_service_groups (applications : List (String × AppConfig)) :
    List (String × List String) :=
  let groups := SERVICE_GROUPS.map (groupOf applications)
  let values := (groups.map Prod.snd).flatten
  let sweep_up := (applications.map Prod.fst).filter (fun app => !decide (app ∈ values))
  (groups ++ [("sweep_up", sweep_up)]).map (fun g => (g.1, g.2.insertionSort (· ≤ ·)))

/-- The planner pipeline shared by the three entry points: filter the
candidates, then build the service groups. -/
def plan_groups (status : List (String × AppConfig)) (filters : List AppFilter) :
    List (String × List String) :=
  _build_service_groups (get_upgrade_candidates status filters)

/-- `get_upgrade_groups`: default filters are subordinates, the hardcoded
exclude list, and non-OpenStack services. -/
def get_upgrade_groups (status : List (String × AppConfig))
    (extra_filters : PyVal AppFilter) : Except String (List (String × List String)) := do
  let filters ← _apply_extra_filters
    [_filter_subordinates, _filter_openstack_upgrade_list, _filter_non_openstack_services]
    extra_filters
  return plan_groups status filters

/-- `get_series_upgrade_groups`: default filter is subordinates only. -/
def get_series_upgrade_groups (status : List (String × AppConfig))
    (extra_filters : PyVal AppFilter) : Except String (List (String × List String)) := do
  let filters ← _apply_extra_filters [_filter_subordinates] extra_filters
  return plan_groups status filters

/-- `get_charm_upgrade_groups`: no default filters. -/
def get_charm_upgrade_groups (status : List (String × AppConfig))
    (extra_filters : PyVal AppFilter) : Except String (List (String × List String)) := do
  let filters ← _apply_extra_filters [] extra_filters
  return plan_groups status filters

deriving instance DecidableEq for Except

/-- The `zaza_exceptions` error kinds raised by the validator and by
process-id discovery. -/
inductive ZazaException where
  | UnitCountMismatch
  | UnitNotFound (unit : String)
  | ProcessNameCountMismatch (unit : String)
  | ProcessNameMismatch (unit proc : String)
  | PIDCountMismatch (unit proc : String)
  | ProcessIdsFailed
deriving DecidableEq, Repr

/-- An expected PID count: a plain integer, or a sequence of acceptable
exact counts. -/
inductive ExpCount where
  | exact (n : Int)
  | oneOf (ns : List Int)
deriving DecidableEq, Repr

/-- Mapping unit-id → process-name → expected count. -/
abbrev ExpectedProcessMap := List (String × List (String × ExpCount))

/-- Mapping unit-id → process-name → list of PID strings. -/
abbrev ActualProcessMap := List (String × List (String × List String))

/-- Modelled from the spec: the per-unit/per-process PID-count test of
`validate_unit_process_ids` (its implementation in
`zaza/openstack/utilities/generic.py` is not in the sources, only its
tests): an integer expected value must equal the number of actual PIDs, a
sequence must contain it. -/
def pidCountOk (e_pids : ExpCount) (a_pids : List String) : Bool :=
  match e_pids with
  | .exact n => decide ((a_pids.length : Int) = n)
  | .oneOf ns => decide ((a_pids.length : Int) ∈ ns)

/-- Modelled from the spec: `validate_unit_process_ids` from
`zaza/openstack/utilities/generic.py` (not in the sources, only its
tests). The five checks run in the spec's order, first failure wins:
unit-count equality, unit presence, per-unit process-name count, per-unit
process-name presence, per-unit/per-process PID count; `true` when all
pass. -/
def validate_unit_process_ids (expected : ExpectedProcessMap)
    (actual : ActualProcessMap) : Except ZazaException Bool :=
  if expected.length ≠ actual.length then
    .error .UnitCountMismatch
  else match expected.find? (fun p => (actual.lookup p.1).isNone) with
  | some p => .error (.UnitNotFound p.1)
  | none =>
  match expected.find? (fun p => p.2.length != ((actual.lookup p.1).getD []).length) with
  | some p => .error (.ProcessNameCountMismatch p.1)
  | none =>
  match expected.findSome? (fun p =>
      (p.2.find? (fun q => (((actual.lookup p.1).getD []).lookup q.1).isNone)).map
        (fun q => (p.1, q.1))) with
  | some up => .error (.ProcessNameMismatch up.1 up.2)
  | none =>
  match expected.findSome? (fun p =>
      (p.2.find? (fun q =>
        !pidCountOk q.2 ((((actual.lookup p.1).getD []).lookup q.1).getD []))).map
        (fun q => (p.1, q.1))) with
  | some up => .error (.PIDCountMismatch up.1 up.2)
  | none => .ok true

/-- Check 1 of the spec: the unit counts agree. -/
def unitCountOk (expected : ExpectedProcessMap) (actual : ActualProcessMap) : Prop :=
  expected.length = actual.length

/-- Check 2 of the spec: every expected unit is present in `actual`. -/
def unitsPresentOk (expected : ExpectedProcessMap) (actual : ActualProcessMap) : Prop :=
  ∀ p ∈ expected, (actual.lookup p.1).isSome = true

/-- Check 3 of the spec: per unit, the process-name counts agree. -/
def procNameCountOk (expected : ExpectedProcessMap) (actual : ActualProcessMap) : Prop :=
  ∀ p ∈ expected, p.2.length = ((actual.lookup p.1).getD []).length

/-- Check 4 of the spec: per unit, every expected process name is present. -/
def procNamesPresentOk (expected : ExpectedProcessMap) (actual : ActualProcessMap) : Prop :=
  ∀ p ∈ expected, ∀ q ∈ p.2, (((actual.lookup p.1).getD []).lookup q.1).isSome = true

/-- Check 5 of the spec: per unit and process, the PID count is accepted. -/
def pidCountsOk (expected : ExpectedProcessMap) (actual : ActualProcessMap) : Prop :=
  ∀ p ∈ expected, ∀ q ∈ p.2,
    pidCountOk q.2 ((((actual.lookup p.1).getD []).lookup q.1).getD []) = true

/-- Result of `zaza.model.run_on_unit` as the spec describes it. -/
structure RunResult where
  code : Int
  stdout : String
  stderr : String
deriving DecidableEq, Repr

/-- Helper for `pySplitWhitespace`: accumulates the current token
(reversed) while scanning. -/
def splitWsAux (cur : List Char) : List Char → List (List Char)
  | [] => if cur.isEmpty then [] else [cur.reverse]
  | c :: cs =>
    if c.isWhitespace then
      if cur.isEmpty then splitWsAux [] cs else cur.reverse :: splitWsAux [] cs
    else
      splitWsAux (c :: cur) cs

/-- Python `str.split()` with no argument: split on whitespace runs,
dropping empty pieces. -/
def pySplitWhitespace (s : String) : List String :=
  (splitWsAux [] s.data).map (fun l => ⟨l⟩)

/-- Modelled from the spec: `get_process_id_list` from
`zaza/openstack/utilities/generic.py` (not in the sources, only its
tests), with the remote `pidof` execution replaced by its `RunResult`:
result code 0 yields the whitespace-separated PIDs of stdout; a nonzero
code raises `ProcessIdsFailed` when `expect_success`, else yields `[]`. -/
def get_process_id_list (res : RunResult) (expect_success : Bool) :
    Except ZazaException (List String) :=
  if res.code == 0 then
    .ok (pySplitWhitespace res.stdout)
  else if expect_success then
    .error .ProcessIdsFailed
  else
    .ok []

end Zaza

namespace Zaza

theorem splitOnChar_ne_nil (c : Char) (l : List Char) : splitOnChar c l ≠ [] := by
  cases l with
  | nil => simp [splitOnChar]
  | cons x xs =>
    rw [splitOnChar]
    rcases h : splitOnChar c xs with _ | ⟨h0, t⟩
    · simp
    · by_cases hx : x = c <;> simp [hx]

/-- C9: charm-name extraction is total on strings: the Python computation
with its fallible steps made explicit (`extract_py`) succeeds on every
string input, agreeing with `extract_charm_name_from_url`, and fails
exactly on `None`. -/
theorem extract_charm_name_total_on_strings :
    (∀ s : String, extract_py (some s) = some (extract_charm_name_from_url s)) ∧
    extract_py none = none := by
  refine ⟨?_, rfl⟩
  intro s
  have h1 := splitOnChar_ne_nil '/' s.data
  rcases hx : (splitOnChar '/' s.data).getLast? with _ | t
  · exact absurd (List.getLast?_eq_none_iff.mp hx) h1
  · have h2 := splitOnChar_ne_nil ':' (stripRevisionSuffix t)
    rcases hy : (splitOnChar ':' (stripRevisionSuffix t)).getLast? with _ | u
    · exact absurd (List.getLast?_eq_none_iff.mp hy) h2
    · simp [extract_py, extract_charm_name_from_url, lastOfSplit, hx, hy,
        List.getLastD_eq_getLast?]

/-- C10: the hardcoded exclude-list filter fires exactly when the
application's own name or its extracted charm name is on
`UPGRADE_EXCLUDE_LIST` (`rabbitmq-server`, `percona-cluster`); in
particular an app named differently from its excluded charm is still
excluded. -/
theorem exclude_list_matches_app_or_charm :
    (∀ (app : String) (cfg : AppConfig),
      _filter_openstack_upgrade_list app cfg = true ↔
        (app ∈ UPGRADE_EXCLUDE_LIST ∨
          extract_charm_name_from_url cfg.charm ∈ UPGRADE_EXCLUDE_LIST)) ∧
    UPGRADE_EXCLUDE_LIST = ["rabbitmq-server", "percona-cluster"] ∧
    _filter_openstack_upgrade_list "mydb" ⟨"cs:bionic/percona-cluster-31", [], []⟩ = true := by
  refine ⟨?_, rfl, by decide⟩
  intro app cfg
  simp [_filter_openstack_upgrade_list]

theorem apply_extra_filters_of_list (fl fs : List AppFilter) :
    _apply_extra_filters fl (.list fs) = .ok (fl ++ fs) := by
  cases fs <;> simp [_apply_extra_filters, PyVal.isTruthy]

theorem apply_extra_filters_of_func (fl : List AppFilter) (f : AppFilter) :
    _apply_extra_filters fl (.func f) = .ok (fl ++ [f]) := by
  simp [_apply_extra_filters, PyVal.isTruthy]

theorem apply_extra_filters_of_other (fl : List AppFilter) :
    _apply_extra_filters fl (.other true) =
      .error "extra_filters should be a list of callables" := by
  simp [_apply_extra_filters, PyVal.isTruthy]

/-- C5: for every planning entry point, a list `extra_filters` is appended
element-wise after the default chain, a single callable is appended as one
filter, and any other truthy value makes the call fail with the
invalid-argument error instead of producing a plan. -/
theorem extra_filters_append_or_invalid :
    (∀ fl fs : List AppFilter, _apply_extra_filters fl (.list fs) = .ok (fl ++ fs)) ∧
    (∀ (fl : List AppFilter) (f : AppFilter),
      _apply_extra_filters fl (.func f) = .ok (fl ++ [f])) ∧
    (∀ fl : List AppFilter, _apply_extra_filters fl (.other true) =
      .error "extra_filters should be a list of callables") ∧
    (∀ (status : List (String × AppConfig)) (fs : List AppFilter),
      get_upgrade_groups status (.list fs) =
        .ok (plan_groups status
          ([_filter_subordinates, _filter_openstack_upgrade_list,
            _filter_non_openstack_services] ++ fs))) ∧
    (∀ (status : List (String × AppConfig)) (f : AppFilter),
      get_upgrade_groups status (.func f) =
        .ok (plan_groups status
          ([_filter_subordinates, _filter_openstack_upgrade_list,
            _filter_non_openstack_services] ++ [f]))) ∧
    (∀ status : List (String × AppConfig), get_upgrade_groups status (.other true) =
      .error "extra_filters should be a list of callables") ∧
    (∀ (status : List (String × AppConfig)) (fs : List AppFilter),
      get_series_upgrade_groups status (.list fs) =
        .ok (plan_groups status ([_filter_subordinates] ++ fs))) ∧
    (∀ (status : List (String × AppConfig)) (f : AppFilter),
      get_series_upgrade_groups status (.func f) =
        .ok (plan_groups status ([_filter_subordinates] ++ [f]))) ∧
    (∀ status : List (String × AppConfig), get_series_upgrade_groups status (.other true) =
      .error "extra_filters should be a list of callables") ∧
    (∀ (status : List (String × AppConfig)) (fs : List AppFilter),
      get_charm_upgrade_groups status (.list fs) = .ok (plan_groups status fs)) ∧
    (∀ (status : List (String × AppConfig)) (f : AppFilter),
      get_charm_upgrade_groups status (.func f) = .ok (plan_groups status [f])) ∧
    (∀ status : List (String × AppConfig), get_charm_upgrade_groups status (.other true) =
      .error "extra_filters should be a list of callables") := by
  refine ⟨apply_extra_filters_of_list, apply_extra_filters_of_func,
    apply_extra_filters_of_other, ?_, ?_, ?_, ?_, ?_, ?_, ?_, ?_, ?_⟩ <;>
    intro status <;> try intro x
  all_goals
    simp [get_upgrade_groups, get_series_upgrade_groups, get_charm_upgrade_groups,
      apply_extra_filters_of_list, apply_extra_filters_of_func,
      apply_extra_filters_of_other, Except.bind]

/-- C7: `get_process_id_list` returns the whitespace-separated PID strings
of stdout when the result code is 0 (stdout `"1 2"` yields `["1", "2"]`),
and raises `ProcessIdsFailed` on a nonzero code with
`expect_success = true`. -/
theorem get_process_id_list_ok_and_failure :
    (∀ (out err : String) (es : Bool),
      get_process_id_list ⟨0, out, err⟩ es = .ok (pySplitWhitespace out)) ∧
    get_process_id_list ⟨0, "1 2", ""⟩ true = .ok ["1", "2"] ∧
    get_process_id_list ⟨0, "1 2", ""⟩ false = .ok ["1", "2"] ∧
    (∀ (c : Int), c ≠ 0 → ∀ out err : String,
      get_process_id_list ⟨c, out, err⟩ true = .error .ProcessIdsFailed) := by
  refine ⟨fun out err es => by simp [get_process_id_list], by rfl, by rfl, ?_⟩
  intro c hc out err
  simp [get_process_id_list, hc]

/-- C8: full-upgrade planning pre-installs exactly the subordinate,
exclude-list and non-OpenStack filters in that order; series-upgrade
planning pre-installs only the subordinate filter; charm-upgrade planning
pre-installs none (so no app is excluded by default). The conjuncts also
pin down what each default filter tests. -/
theorem default_filter_chains (status : List (String × AppConfig)) :
    get_upgrade_groups status .none =
      .ok (_build_service_groups (status.filter (fun p => _include_app p.1 p.2
        [_filter_subordinates, _filter_openstack_upgrade_list,
         _filter_non_openstack_services]))) ∧
    get_series_upgrade_groups status .none =
      .ok (_build_service_groups (status.filter (fun p => _include_app p.1 p.2
        [_filter_subordinates]))) ∧
    get_charm_upgrade_groups status .none = .ok (_build_service_groups status) ∧
    (∀ (app : String) (cfg : AppConfig),
      _filter_subordinates app cfg = true ↔ cfg.subordinateTo ≠ []) ∧
    UPGRADE_EXCLUDE_LIST = ["rabbitmq-server", "percona-cluster"] ∧
    (∀ (app : String) (cfg : AppConfig),
      _filter_non_openstack_services app cfg = true ↔
        ("openstack-origin" ∉ cfg.configOptions ∧ "source" ∉ cfg.configOptions)) := by
  refine ⟨rfl, rfl, ?_, ?_, rfl, ?_⟩
  · show Except.ok (plan_groups status []) = _
    have h : status.filter (fun p => _include_app p.1 p.2 []) = status := by
      simp [_include_app]
    simp [plan_groups, get_upgrade_candidates, h]
  · intro app cfg
    simp [_filter_subordinates, List.isEmpty_iff]
  · intro app cfg
    simp only [_filter_non_openstack_services]
    by_cases h1 : "openstack-origin" ∈ cfg.configOptions <;>
      by_cases h2 : "source" ∈ cfg.configOptions <;>
      simp [List.filter, h1, h2]

/-- C3: the per-process PID-count check equates an integer expected value
with the number of actual PIDs and treats a sequence expected value as
membership; on the spec's example, expected `[1, 2]` accepts 1 or 2
actual PIDs and any other count yields `PIDCountMismatch`. -/
theorem pid_count_dual_shape :
    (∀ (n : Int) (a_pids : List String),
      pidCountOk (.exact n) a_pids = true ↔ (a_pids.length : Int) = n) ∧
    (∀ (ns : List Int) (a_pids : List String),
      pidCountOk (.oneOf ns) a_pids = true ↔ (a_pids.length : Int) ∈ ns) ∧
    (∀ pids : List String,
      validate_unit_process_ids [("u1", [("p", .oneOf [1, 2])])] [("u1", [("p", pids)])] =
        if pids.length = 1 ∨ pids.length = 2 then .ok true
        else .error (.PIDCountMismatch "u1" "p")) := by
  refine ⟨fun n a => by simp [pidCountOk], fun ns a => by simp [pidCountOk], ?_⟩
  intro pids
  have hiff : ((pids.length : Int) ∈ ([1, 2] : List Int)) ↔
      (pids.length = 1 ∨ pids.length = 2) := by
    simp only [List.mem_cons, List.not_mem_nil, or_false]
    omega
  have hpid : pidCountOk (.oneOf [1, 2]) pids =
      decide (pids.length = 1 ∨ pids.length = 2) := by
    simp [pidCountOk, hiff]
  by_cases h : pids.length = 1 ∨ pids.length = 2 <;>
    simp [validate_unit_process_ids, List.lookup, List.find?, List.findSome?, hpid, h]

theorem stage2_none_iff (e : ExpectedProcessMap) (a : ActualProcessMap) :
    e.find? (fun p => (a.lookup p.1).isNone) = none ↔ unitsPresentOk e a := by
  rw [List.find?_eq_none]
  unfold unitsPresentOk
  refine forall_congr' fun p => forall_congr' fun _ => ?_
  cases a.lookup p.1 <;> simp

theorem stage3_none_iff (e : ExpectedProcessMap) (a : ActualProcessMap) :
    e.find? (fun p => p.2.length != ((a.lookup p.1).getD []).length) = none ↔
      procNameCountOk e a := by
  rw [List.find?_eq_none]
  unfold procNameCountOk
  refine forall_congr' fun p => forall_congr' fun _ => ?_
  simp

theorem stage4_none_iff (e : ExpectedProcessMap) (a : ActualProcessMap) :
    e.findSome? (fun p =>
      (p.2.find? (fun q => (((a.lookup p.1).getD []).lookup q.1).isNone)).map
        (fun q => (p.1, q.1))) = none ↔ procNamesPresentOk e a := by
  rw [List.findSome?_eq_none_iff]
  unfold procNamesPresentOk
  refine forall_congr' fun p => forall_congr' fun _ => ?_
  rw [Option.map_eq_none', List.find?_eq_none]
  refine forall_congr' fun q => forall_congr' fun _ => ?_
  cases ((a.lookup p.1).getD []).lookup q.1 <;> simp

theorem stage5_none_iff (e : ExpectedProcessMap) (a : ActualProcessMap) :
    e.findSome? (fun p =>
      (p.2.find? (fun q =>
        !pidCountOk q.2 ((((a.lookup p.1).getD []).lookup q.1).getD []))).map
        (fun q => (p.1, q.1))) = none ↔ pidCountsOk e a := by
  rw [List.findSome?_eq_none_iff]
  unfold pidCountsOk
  refine forall_congr' fun p => forall_congr' fun _ => ?_
  rw [Option.map_eq_none', List.find?_eq_none]
  refine forall_congr' fun q => forall_congr' fun _ => ?_
  simp

theorem validate_eq_of_stage1 {e : ExpectedProcessMap} {a : ActualProcessMap}
    (h : e.length ≠ a.length) :
    validate_unit_process_ids e a = .error .UnitCountMismatch := by
  unfold validate_unit_process_ids
  rw [if_pos h]

theorem validate_eq_of_stage2 {e : ExpectedProcessMap} {a : ActualProcessMap}
    {p : String × List (String × ExpCount)} (h1 : e.length = a.length)
    (h2 : e.find? (fun p => (a.lookup p.1).isNone) = some p) :
    validate_unit_process_ids e a = .error (.UnitNotFound p.1) := by
  unfold validate_unit_process_ids
  rw [if_neg (not_not_intro h1), h2]

theorem validate_eq_of_stage3 {e : ExpectedProcessMap} {a : ActualProcessMap}
    {p : String × List (String × ExpCount)} (h1 : e.length = a.length)
    (h2 : e.find? (fun p => (a.lookup p.1).isNone) = none)
    (h3 : e.find? (fun p => p.2.length != ((a.lookup p.1).getD []).length) = some p) :
    validate_unit_process_ids e a = .error (.ProcessNameCountMismatch p.1) := by
  unfold validate_unit_process_ids
  rw [if_neg (not_not_intro h1), h2, h3]

theorem validate_eq_of_stage4 {e : ExpectedProcessMap} {a : ActualProcessMap}
    {up : String × String} (h1 : e.length = a.length)
    (h2 : e.find? (fun p => (a.lookup p.1).isNone) = none)
    (h3 : e.find? (fun p => p.2.length != ((a.lookup p.1).getD []).length) = none)
    (h4 : e.findSome? (fun p =>
      (p.2.find? (fun q => (((a.lookup p.1).getD []).lookup q.1).isNone)).map
        (fun q => (p.1, q.1))) = some up) :
    validate_unit_process_ids e a = .error (.ProcessNameMismatch up.1 up.2) := by
  unfold validate_unit_process_ids
  rw [if_neg (not_not_intro h1), h2, h3, h4]

theorem validate_eq_of_stage5 {e : ExpectedProcessMap} {a : ActualProcessMap}
    {up : String × String} (h1 : e.length = a.length)
    (h2 : e.find? (fun p => (a.lookup p.1).isNone) = none)
    (h3 : e.find? (fun p => p.2.length != ((a.lookup p.1).getD []).length) = none)
    (h4 : e.findSome? (fun p =>
      (p.2.find? (fun q => (((a.lookup p.1).getD []).lookup q.1).isNone)).map
        (fun q => (p.1, q.1))) = none)
    (h5 : e.findSome? (fun p =>
      (p.2.find? (fun q =>
        !pidCountOk q.2 ((((a.lookup p.1).getD []).lookup q.1).getD []))).map
        (fun q => (p.1, q.1))) = some up) :
    validate_unit_process_ids e a = .error (.PIDCountMismatch up.1 up.2) := by
  unfold validate_unit_process_ids
  rw [if_neg (not_not_intro h1), h2, h3, h4, h5]

theorem validate_eq_of_all_pass {e : ExpectedProcessMap} {a : ActualProcessMap}
    (h1 : e.length = a.length)
    (h2 : e.find? (fun p => (a.lookup p.1).isNone) = none)
    (h3 : e.find? (fun p => p.2.length != ((a.lookup p.1).getD []).length) = none)
    (h4 : e.findSome? (fun p =>
      (p.2.find? (fun q => (((a.lookup p.1).getD []).lookup q.1).isNone)).map
        (fun q => (p.1, q.1))) = none)
    (h5 : e.findSome? (fun p =>
      (p.2.find? (fun q =>
        !pidCountOk q.2 ((((a.lookup p.1).getD []).lookup q.1).getD []))).map
        (fun q => (p.1, q.1))) = none) :
    validate_unit_process_ids e a = .ok true := by
  unfold validate_unit_process_ids
  rw [if_neg (not_not_intro h1), h2, h3, h4, h5]

/-- C2: `validate_unit_process_ids` performs its checks in the fixed order
unit-count, unit-presence, process-name-count, process-name-presence,
PID-count; the first failing check determines the raised error, and the
result is `true` exactly when every check passes. -/
theorem validate_unit_process_ids_check_order (e : ExpectedProcessMap)
    (a : ActualProcessMap) :
    (validate_unit_process_ids e a = .ok true ↔
      (unitCountOk e a ∧ unitsPresentOk e a ∧ procNameCountOk e a ∧
        procNamesPresentOk e a ∧ pidCountsOk e a)) ∧
    (∀ r : Bool, validate_unit_process_ids e a = .ok r → r = true) ∧
    (validate_unit_process_ids e a = .error .UnitCountMismatch ↔ ¬ unitCountOk e a) ∧
    ((∃ u, validate_unit_process_ids e a = .error (.UnitNotFound u)) ↔
      (unitCountOk e a ∧ ¬ unitsPresentOk e a)) ∧
    ((∃ u, validate_unit_process_ids e a = .error (.ProcessNameCountMismatch u)) ↔
      (unitCountOk e a ∧ unitsPresentOk e a ∧ ¬ procNameCountOk e a)) ∧
    ((∃ u pr, validate_unit_process_ids e a = .error (.ProcessNameMismatch u pr)) ↔
      (unitCountOk e a ∧ unitsPresentOk e a ∧ procNameCountOk e a ∧
        ¬ procNamesPresentOk e a)) ∧
    ((∃ u pr, validate_unit_process_ids e a = .error (.PIDCountMismatch u pr)) ↔
      (unitCountOk e a ∧ unitsPresentOk e a ∧ procNameCountOk e a ∧
        procNamesPresentOk e a ∧ ¬ pidCountsOk e a)) := by
  by_cases h1 : e.length = a.length
  case neg =>
    simp only [validate_eq_of_stage1 h1]
    refine ⟨?_, ?_, ?_, ?_, ?_, ?_, ?_⟩ <;> simp [unitCountOk, h1]
  case pos =>
  have hcu : unitCountOk e a := h1
  rcases h2 : e.find? (fun p => (a.lookup p.1).isNone) with _ | p
  · have hpres : unitsPresentOk e a := (stage2_none_iff e a).mp h2
    rcases h3 : e.find? (fun p => p.2.length != ((a.lookup p.1).getD []).length)
      with _ | p
    · have hpc : procNameCountOk e a := (stage3_none_iff e a).mp h3
      rcases h4 : e.findSome? (fun p =>
          (p.2.find? (fun q => (((a.lookup p.1).getD []).lookup q.1).isNone)).map
            (fun q => (p.1, q.1))) with _ | up
      · have hnames : procNamesPresentOk e a := (stage4_none_iff e a).mp h4
        rcases h5 : e.findSome? (fun p =>
            (p.2.find? (fun q =>
              !pidCountOk q.2 ((((a.lookup p.1).getD []).lookup q.1).getD []))).map
              (fun q => (p.1, q.1))) with _ | up
        · have hpid : pidCountsOk e a := (stage5_none_iff e a).mp h5
          simp only [validate_eq_of_all_pass h1 h2 h3 h4 h5]
          refine ⟨?_, ?_, ?_, ?_, ?_, ?_, ?_⟩ <;>
            simp [hcu, hpres, hpc, hnames, hpid]
        · obtain ⟨p, hpmem, hfp⟩ := List.exists_of_findSome?_eq_some h5
          obtain ⟨q, hq, _⟩ := Option.map_eq_some'.mp hfp
          have hqmem := List.mem_of_find?_eq_some hq
          have hqpred := List.find?_some hq
          have hnpid : ¬ pidCountsOk e a := fun hok => by
            have h := hok p hpmem q hqmem
            rw [h] at hqpred
            simp at hqpred
          simp only [validate_eq_of_stage5 h1 h2 h3 h4 h5]
          refine ⟨?_, ?_, ?_, ?_, ?_, ?_, ?_⟩ <;>
            simp [hcu, hpres, hpc, hnames, hnpid]
      · obtain ⟨p, hpmem, hfp⟩ := List.exists_of_findSome?_eq_some h4
        obtain ⟨q, hq, _⟩ := Option.map_eq_some'.mp hfp
        have hqmem := List.mem_of_find?_eq_some hq
        have hqpred := List.find?_some hq
        have hnn : ¬ procNamesPresentOk e a := fun hok => by
          have h := hok p hpmem q hqmem
          rw [Option.isNone_iff_eq_none.mp hqpred] at h
          simp at h
        simp only [validate_eq_of_stage4 h1 h2 h3 h4]
        refine ⟨?_, ?_, ?_, ?_, ?_, ?_, ?_⟩ <;> simp [hcu, hpres, hpc, hnn]
    · have hmem := List.mem_of_find?_eq_some h3
      have hpred := List.find?_some h3
      have hnc : ¬ procNameCountOk e a := fun hok => (bne_iff_ne.mp hpred) (hok p hmem)
      simp only [validate_eq_of_stage3 h1 h2 h3]
      refine ⟨?_, ?_, ?_, ?_, ?_, ?_, ?_⟩ <;> simp [hcu, hpres, hnc]
  · have hmem := List.mem_of_find?_eq_some h2
    have hpred := List.find?_some h2
    have hnp : ¬ unitsPresentOk e a := fun hup => by
      have h := hup p hmem
      rw [Option.isNone_iff_eq_none.mp hpred] at h
      simp at h
    simp only [validate_eq_of_stage2 h1 h2]
    refine ⟨?_, ?_, ?_, ?_, ?_, ?_, ?_⟩ <;> simp [hcu, hnp]

theorem getLastD_irrel {α : Type} {l : List α} (h : l ≠ []) (d d' : α) :
    l.getLastD d = l.getLastD d' := by
  cases l with
  | nil => exact absurd rfl h
  | cons x xs => rw [List.getLastD_cons, List.getLastD_cons]

theorem splitOnChar_of_not_mem {c : Char} {l : List Char} (h : c ∉ l) :
    splitOnChar c l = [l] := by
  induction l with
  | nil => rfl
  | cons x xs ih =>
    have hxs : c ∉ xs := fun hc => h (List.mem_cons_of_mem x hc)
    have hx : ¬ (x = c) := fun hx => h (hx ▸ List.mem_cons_self x xs)
    simp [splitOnChar, ih hxs, hx]

theorem two_le_splitOnChar_length {c : Char} {l : List Char} (h : c ∈ l) :
    2 ≤ (splitOnChar c l).length := by
  induction l with
  | nil => cases h
  | cons x xs ih =>
    rcases hs : splitOnChar c xs with _ | ⟨h0, t⟩
    · exact absurd hs (splitOnChar_ne_nil c xs)
    · by_cases hx : x = c
      · simp [splitOnChar, hs, hx]
      · have hc : c ∈ xs := by
          rcases List.mem_cons.mp h with h' | h'
          · exact absurd h'.symm hx
          · exact h'
        have h2 := ih hc
        rw [hs] at h2
        simp only [splitOnChar, hs, if_neg hx]
        simpa using h2

theorem takeWhile_eq_self_of_forall {α : Type} {p : α → Bool} {A : List α}
    (h : ∀ a ∈ A, p a = true) : A.takeWhile p = A := by
  induction A with
  | nil => rfl
  | cons a A ih =>
    rw [List.takeWhile_cons, if_pos (h a (List.mem_cons_self a A)),
      ih (fun b hb => h b (List.mem_cons_of_mem a hb))]

theorem takeWhile_append_single {α : Type} (p : α → Bool) (A : List α) (y : α) :
    (A ++ [y]).takeWhile p =
      if A.all p then (if p y then A ++ [y] else A) else A.takeWhile p := by
  induction A with
  | nil => by_cases hy : p y <;> simp [List.takeWhile_cons, hy]
  | cons a A ih =>
    by_cases ha : p a <;> by_cases hA : A.all p <;> by_cases hy : p y <;>
      simp [List.takeWhile_cons, ha, hA, hy, ih]

theorem revAfter_cons (c x : Char) (xs : List Char) :
    ((x :: xs).reverse.takeWhile (fun a => a != c)).reverse =
      if c ∈ xs then (xs.reverse.takeWhile (fun a => a != c)).reverse
      else if x = c then xs
      else x :: (xs.reverse.takeWhile (fun a => a != c)).reverse := by
  rw [List.reverse_cons, takeWhile_append_single]
  by_cases hm : c ∈ xs
  · have hall : xs.reverse.all (fun a => a != c) = false :=
      List.all_eq_false.mpr ⟨c, by simpa using hm, by simp⟩
    simp [hall, hm]
  · have hall : xs.reverse.all (fun a => a != c) = true := by
      rw [List.all_eq_true]
      intro a ha
      simp only [bne_iff_ne, ne_eq]
      rintro rfl
      exact hm (by simpa using ha)
    have htw : xs.reverse.takeWhile (fun a => a != c) = xs.reverse :=
      takeWhile_eq_self_of_forall (List.all_eq_true.mp hall)
    by_cases hx : x = c
    · simp [hall, hm, hx]
    · simp [hall, hm, hx, htw]

theorem lastOfSplit_eq (c : Char) (l : List Char) :
    lastOfSplit c l = (l.reverse.takeWhile (fun a => a != c)).reverse := by
  induction l with
  | nil => rfl
  | cons x xs ih =>
    rw [revAfter_cons]
    rcases hs : splitOnChar c xs with _ | ⟨h0, t⟩
    · exact absurd hs (splitOnChar_ne_nil c xs)
    · have hinner : lastOfSplit c xs = (h0 :: t).getLastD [] := by
        rw [lastOfSplit, hs]
      by_cases hm : c ∈ xs
      · have hlen := two_le_splitOnChar_length hm
        rw [hs] at hlen
        have ht : t ≠ [] := by
          cases t with
          | nil => simp at hlen
          | cons a b => simp
        by_cases hx : x = c
        · rw [if_pos hm, ← ih, hinner]
          rw [lastOfSplit]
          simp only [splitOnChar, hs, if_pos hx]
          rw [List.getLastD_cons, List.getLastD_cons]
        · rw [if_pos hm, ← ih, hinner]
          rw [lastOfSplit]
          simp only [splitOnChar, hs, if_neg hx]
          rw [List.getLastD_cons, List.getLastD_cons]
          exact getLastD_irrel ht _ _
      · have hone : splitOnChar c xs = [xs] := splitOnChar_of_not_mem hm
        rw [hs] at hone
        have hh0 : h0 = xs := by injection hone with e1 e2
        have ht : t = [] := by injection hone with e1 e2
        subst hh0; subst ht
        rw [if_neg hm]
        by_cases hx : x = c
        · rw [if_pos hx, lastOfSplit]
          simp only [splitOnChar, hs, if_pos hx]
          rw [List.getLastD_cons, List.getLastD_cons]
          rfl
        · rw [if_neg hx, ← ih, hinner, lastOfSplit]
          simp only [splitOnChar, hs, if_neg hx]
          rw [List.getLastD_cons, List.getLastD_cons]
          rfl

theorem takeWhile_append_of_forall {α : Type} {p : α → Bool} {A : List α} (B : List α)
    (h : ∀ a ∈ A, p a = true) : (A ++ B).takeWhile p = A ++ B.takeWhile p := by
  induction A with
  | nil => rfl
  | cons a A ih =>
    rw [List.cons_append, List.takeWhile_cons, if_pos (h a (List.mem_cons_self a A)),
      ih (fun b hb => h b (List.mem_cons_of_mem a hb)), List.cons_append]

theorem dropWhile_append_of_forall {α : Type} {p : α → Bool} {A : List α} (B : List α)
    (h : ∀ a ∈ A, p a = true) : (A ++ B).dropWhile p = B.dropWhile p := by
  induction A with
  | nil => rfl
  | cons a A ih =>
    rw [List.cons_append, List.dropWhile_cons, if_pos (h a (List.mem_cons_self a A)),
      ih (fun b hb => h b (List.mem_cons_of_mem a hb))]

theorem head_dropWhile_false {α : Type} {p : α → Bool} {l : List α} {y : α} {ys : List α}
    (h : l.dropWhile p = y :: ys) : p y = false := by
  induction l with
  | nil => cases h
  | cons a l ih =>
    rw [List.dropWhile_cons] at h
    by_cases ha : p a
    · rw [if_pos ha] at h
      exact ih h
    · rw [if_neg ha] at h
      injection h with h1 h2
      subst h1
      exact Bool.eq_false_iff.mpr ha

theorem takeWhile_comm {α : Type} (p q : α → Bool) (l : List α) :
    (l.takeWhile q).takeWhile p = (l.takeWhile p).takeWhile q := by
  rw [List.takeWhile_takeWhile, List.takeWhile_takeWhile]
  congr 1
  funext a
  by_cases hp : p a <;> by_cases hq : q a <;> simp [hp, hq]

theorem strip_eq_revStrip (l : List Char) :
    stripRevisionSuffix l = (revStrip l.reverse).reverse := by
  unfold stripRevisionSuffix revStrip
  by_cases h1 : (l.reverse.takeWhile Char.isDigit).isEmpty
  · simp [h1]
  · by_cases h2 : (l.reverse.dropWhile Char.isDigit).head? = some '-' <;> simp [h1, h2]

theorem revStrip_takeWhile {c : Char} (hdig : c.isDigit = false) (hdash : c ≠ '-')
    (r : List Char) :
    revStrip (r.takeWhile (fun a => a != c)) =
      (revStrip r).takeWhile (fun a => a != c) := by
  have hqd : ∀ a : Char, a.isDigit = true → (a != c) = true := by
    intro a ha
    simp only [bne_iff_ne, ne_eq]
    rintro rfl
    rw [hdig] at ha
    cases ha
  have S1 : (r.takeWhile (fun a => a != c)).takeWhile Char.isDigit =
      r.takeWhile Char.isDigit := by
    rw [List.takeWhile_takeWhile]
    congr 1
    funext a
    by_cases hd : a.isDigit
    · simp [hd, hqd a hd]
    · simp [hd]
  have hds : ∀ a ∈ r.takeWhile Char.isDigit, (a != c) = true :=
    fun a ha => hqd a (List.mem_takeWhile_imp ha)
  have hdig2 : ∀ a ∈ r.takeWhile Char.isDigit, a.isDigit = true :=
    fun a ha => List.mem_takeWhile_imp ha
  have S2 : (r.takeWhile (fun a => a != c)).dropWhile Char.isDigit =
      (r.dropWhile Char.isDigit).takeWhile (fun a => a != c) := by
    conv_lhs => rw [← List.takeWhile_append_dropWhile Char.isDigit r]
    rw [takeWhile_append_of_forall _ hds, dropWhile_append_of_forall _ hdig2]
    rcases hrest : r.dropWhile Char.isDigit with _ | ⟨y, r2⟩
    · rfl
    · have hy : Char.isDigit y = false := head_dropWhile_false hrest
      rw [List.takeWhile_cons]
      by_cases hqy : (y != c) = true
      · rw [if_pos hqy, List.dropWhile_cons, if_neg (by simp [hy])]
      · rw [if_neg hqy]
        rfl
  unfold revStrip
  rw [S1, S2]
  by_cases h1 : (r.takeWhile Char.isDigit).isEmpty
  · simp [h1]
  · rcases hrest : r.dropWhile Char.isDigit with _ | ⟨y, r2⟩
    · simp [h1]
    · by_cases hy : y = '-'
      · have hne : ¬('-' = c) := fun hcy => hdash hcy.symm
        simp [h1, hy, List.takeWhile_cons, hne]
      · by_cases hqy : (y != c) = true
        · simp [h1, hy, List.takeWhile_cons, hqy]
        · simp [h1, hy, List.takeWhile_cons, hqy]

/-- C4: charm-name extraction strips the trailing `-<digits>` revision and
the scheme before the name: the two spec examples hold, and the code's
computation (`split('/')[-1]`, strip, `split(':')[-1]`) coincides with the
spec's described order (strip, then last `:`, then last `/`) on every
input. -/
theorem extract_charm_name_examples_and_order :
    extract_charm_name_from_url "local:bionic/heat-12" = "heat" ∧
    extract_charm_name_from_url "cs:heat" = "heat" ∧
    ∀ url : String, extract_charm_name_from_url url = extract_charm_name_spec_order url := by
  refine ⟨by rfl, by rfl, ?_⟩
  intro url
  unfold extract_charm_name_from_url extract_charm_name_spec_order
  congr 1
  simp only [lastOfSplit_eq, strip_eq_revStrip, List.reverse_reverse]
  rw [revStrip_takeWhile (by decide) (by decide)]
  rw [takeWhile_comm]

theorem include_app_iff (app : String) (cfg : AppConfig) (fs : List AppFilter) :
    _include_app app cfg fs = true ↔ ∀ f ∈ fs, f app cfg = false := by
  induction fs with
  | nil => simp [_include_app]
  | cons f fs ih =>
    rw [_include_app]
    by_cases hf : f app cfg = true
    · simp only [if_pos hf]
      constructor
      · intro h
        cases h
      · intro h
        rw [h f (List.mem_cons_self f fs)] at hf
        cases hf
    · simp only [if_neg hf, ih]
      constructor
      · intro h g hg
        rcases List.mem_cons.mp hg with rfl | hg
        · exact Bool.eq_false_iff.mpr hf
        · exact h g hg
      · intro h g hg
        exact h g (List.mem_cons_of_mem f hg)

theorem filter_or_perm {α : Type} {p q : α → Bool} {l : List α}
    (hex : ∀ x ∈ l, ¬(p x = true ∧ q x = true)) :
    (l.filter p ++ l.filter q).Perm (l.filter (fun x => p x || q x)) := by
  induction l with
  | nil => simp
  | cons x xs ih =>
    have hex2 : ∀ y ∈ xs, ¬(p y = true ∧ q y = true) :=
      fun y hy => hex y (List.mem_cons_of_mem x hy)
    by_cases hp : p x = true
    · have hq : q x = false :=
        Bool.eq_false_iff.mpr (fun hq => hex x (List.mem_cons_self x xs) ⟨hp, hq⟩)
      simp only [List.filter_cons, hp, hq, Bool.true_or, if_pos, Bool.false_eq_true,
        if_neg, List.cons_append, ite_true, ite_false]
      exact (ih hex2).cons x
    · have hp2 : p x = false := Bool.eq_false_iff.mpr hp
      by_cases hq : q x = true
      · simp only [List.filter_cons, hp2, hq, Bool.false_or, Bool.false_eq_true,
          ite_false, ite_true]
        exact List.perm_middle.trans ((ih hex2).cons x)
      · have hq2 : q x = false := Bool.eq_false_iff.mpr hq
        simp only [List.filter_cons, hp2, hq2, Bool.false_or, Bool.false_eq_true,
          ite_false]
        exact ih hex2

theorem any_map_ne {α β : Type} (f : α → β) (l : List α) (p : β → Bool) :
    (l.map f).any p = l.any (fun a => p (f a)) := by
  induction l with
  | nil => rfl
  | cons x xs ih => simp [List.any_cons, ih]

theorem flatten_filters_perm {α : Type} (ps : List (α → Bool)) (l : List α)
    (hex : ps.Pairwise (fun p q => ∀ x ∈ l, ¬(p x = true ∧ q x = true))) :
    (ps.map (fun p => l.filter p)).flatten.Perm
      (l.filter (fun x => ps.any (fun p => p x))) := by
  induction ps with
  | nil => simp
  | cons p ps ih =>
    rcases List.pairwise_cons.mp hex with ⟨hhead, htail⟩
    simp only [List.map_cons, List.flatten_cons]
    have hex3 : ∀ x ∈ l, ¬(p x = true ∧ (ps.any (fun r => r x)) = true) := by
      intro x hx ⟨hpx, hanyx⟩
      obtain ⟨r, hr, hrx⟩ := List.any_eq_true.mp hanyx
      exact hhead r hr x hx ⟨hpx, hrx⟩
    have step1 : (l.filter p ++ (ps.map (fun r => l.filter r)).flatten).Perm
        (l.filter p ++ l.filter (fun x => ps.any (fun r => r x))) :=
      (ih htail).append_left _
    refine step1.trans ((filter_or_perm hex3).trans ?_)
    apply List.Perm.of_eq
    apply List.filter_congr
    intro x _
    simp [List.any_cons]

theorem eq_of_mem_of_nodup_keys {β : Type} {l : List (String × β)}
    (hnd : (l.map Prod.fst).Nodup) {a : String} {b c : β}
    (hb : (a, b) ∈ l) (hc : (a, c) ∈ l) : b = c := by
  induction l with
  | nil => cases hb
  | cons x xs ih =>
    have hx1 : x.1 ∉ xs.map Prod.fst := (List.nodup_cons.mp (by simpa using hnd)).1
    have hnd2 : (xs.map Prod.fst).Nodup := (List.nodup_cons.mp (by simpa using hnd)).2
    rcases List.mem_cons.mp hb with rfl | hb2
    · rcases List.mem_cons.mp hc with hceq | hc2
      · exact (congrArg Prod.snd hceq.symm)
      · exact absurd (List.mem_map.mpr ⟨(a, c), hc2, rfl⟩) hx1
    · rcases List.mem_cons.mp hc with rfl | hc2
      · exact absurd (List.mem_map.mpr ⟨(a, b), hb2, rfl⟩) hx1
      · exact ih hnd2 hb2 hc2

theorem service_groups_pairwise_disjoint :
    SERVICE_GROUPS.Pairwise (fun a b => ∀ s ∈ a.2, s ∉ b.2) := by decide

theorem values_perm (apps : List (String × AppConfig)) :
    ((SERVICE_GROUPS.map (groupOf apps)).map Prod.snd).flatten.Perm
      ((apps.filter inAnyGroup).map Prod.fst) := by
  have e1 : (SERVICE_GROUPS.map (groupOf apps)).map Prod.snd =
      (SERVICE_GROUPS.map (fun pc =>
        apps.filter (fun p =>
          decide (extract_charm_name_from_url p.2.charm ∈ pc.2)))).map
        (List.map Prod.fst) := by
    rw [List.map_map, List.map_map]
    rfl
  have e2 : ((SERVICE_GROUPS.map (fun pc =>
      apps.filter (fun p =>
        decide (extract_charm_name_from_url p.2.charm ∈ pc.2)))).map
        (List.map Prod.fst)).flatten =
      ((SERVICE_GROUPS.map (fun pc =>
        apps.filter (fun p =>
          decide (extract_charm_name_from_url p.2.charm ∈ pc.2)))).flatten).map
        Prod.fst := (List.map_flatten _ _).symm
  rw [e1, e2]
  refine List.Perm.map Prod.fst ?_
  have e3 : SERVICE_GROUPS.map (fun pc =>
      apps.filter (fun p => decide (extract_charm_name_from_url p.2.charm ∈ pc.2))) =
      (SERVICE_GROUPS.map (fun pc (p : String × AppConfig) =>
        decide (extract_charm_name_from_url p.2.charm ∈ pc.2))).map
        (fun pr => apps.filter pr) := by
    rw [List.map_map]
    rfl
  rw [e3]
  have hex : (SERVICE_GROUPS.map (fun pc (p : String × AppConfig) =>
      decide (extract_charm_name_from_url p.2.charm ∈ pc.2))).Pairwise
      (fun p q => ∀ x ∈ apps, ¬(p x = true ∧ q x = true)) := by
    rw [List.pairwise_map]
    refine service_groups_pairwise_disjoint.imp ?_
    intro a b hab x _ hx
    rcases hx with ⟨ha, hb⟩
    exact hab _ (of_decide_eq_true ha) (of_decide_eq_true hb)
  refine (flatten_filters_perm _ apps hex).trans (List.Perm.of_eq ?_)
  apply List.filter_congr
  intro x _
  rw [any_map_ne]
  rfl

theorem sweep_eq (apps : List (String × AppConfig))
    (hnd : (apps.map Prod.fst).Nodup) :
    (apps.map Prod.fst).filter (fun app =>
      !decide (app ∈ ((SERVICE_GROUPS.map (groupOf apps)).map Prod.snd).flatten)) =
      (apps.filter (fun p => !inAnyGroup p)).map Prod.fst := by
  rw [List.map_filter]
  apply congrArg (List.map Prod.fst)
  apply List.filter_congr
  intro x hx
  have hiff : x.1 ∈ ((SERVICE_GROUPS.map (groupOf apps)).map Prod.snd).flatten ↔
      inAnyGroup x = true := by
    rw [(values_perm apps).mem_iff]
    constructor
    · intro h
      obtain ⟨y, hy, hyx⟩ := List.mem_map.mp h
      obtain ⟨hyA, hyin⟩ := List.mem_filter.mp hy
      have hy2 : (x.1, y.2) ∈ apps := by
        rw [← hyx]
        simpa using hyA
      have hx2 : (x.1, x.2) ∈ apps := by simpa using hx
      have : y.2 = x.2 := eq_of_mem_of_nodup_keys hnd hy2 hx2
      have hxy : y = x := Prod.ext hyx (this)
      rwa [hxy] at hyin
    · intro h
      exact List.mem_map.mpr ⟨x, List.mem_filter.mpr ⟨hx, h⟩, rfl⟩
  simp only [Function.comp]
  have hdec : decide (x.1 ∈ ((SERVICE_GROUPS.map (groupOf apps)).map Prod.snd).flatten) =
      inAnyGroup x := by
    by_cases h : inAnyGroup x = true
    · rw [h]
      exact decide_eq_true (hiff.mpr h)
    · rw [Bool.eq_false_iff.mpr h]
      exact decide_eq_false (fun hc => h (hiff.mp hc))
  rw [hdec]

theorem flatten_map_sort_perm (L : List (String × List String)) :
    ((L.map (fun g => (g.1, g.2.insertionSort (· ≤ ·)))).map Prod.snd).flatten.Perm
      ((L.map Prod.snd).flatten) := by
  induction L with
  | nil => simp
  | cons g L ih =>
    simp only [List.map_cons, List.flatten_cons]
    exact (List.perm_insertionSort _ _).append ih

theorem build_flatten_perm (apps : List (String × AppConfig))
    (hnd : (apps.map Prod.fst).Nodup) :
    ((_build_service_groups apps).map Prod.snd).flatten.Perm (apps.map Prod.fst) := by
  unfold _build_service_groups
  refine (flatten_map_sort_perm _).trans ?_
  rw [List.map_append, List.flatten_append]
  simp only [List.map_cons, List.map_nil, List.flatten_cons, List.flatten_nil,
    List.append_nil]
  rw [sweep_eq apps hnd]
  refine ((values_perm apps).append (List.Perm.refl _)).trans ?_
  rw [← List.map_append]
  exact List.Perm.map _ (List.filter_append_perm _ _)

theorem build_mem_sorted {apps : List (String × AppConfig)}
    {g : String × List String} (hg : g ∈ _build_service_groups apps) :
    g.2.Sorted (· ≤ ·) := by
  unfold _build_service_groups at hg
  obtain ⟨g0, hg0, hgeq⟩ := List.mem_map.mp hg
  rw [← hgeq]
  exact List.sorted_insertionSort _ _

/-- C1: for every application mapping with distinct names and every filter
chain, the planner's groups partition exactly the surviving applications:
an app survives iff no filter returns true for it, the union of the group
members is (as a multiset and as a set) the survivors, the groups are
pairwise disjoint, and every group's member list is sorted ascending. -/
theorem plan_groups_partitions_survivors (A : List (String × AppConfig))
    (F : List AppFilter) (hnd : (A.map Prod.fst).Nodup) :
    (∀ (app : String) (cfg : AppConfig),
      _include_app app cfg F = true ↔ ∀ f ∈ F, f app cfg = false) ∧
    ((plan_groups A F).map Prod.snd).flatten.Perm
      ((A.filter (fun p => _include_app p.1 p.2 F)).map Prod.fst) ∧
    (∀ name : String, (∃ g ∈ plan_groups A F, name ∈ g.2) ↔
      ∃ cfg : AppConfig, (name, cfg) ∈ A ∧ _include_app name cfg F = true) ∧
    ((plan_groups A F).map Prod.snd).Pairwise List.Disjoint ∧
    (∀ g ∈ plan_groups A F, g.2.Sorted (· ≤ ·)) := by
  have hsub : ((A.filter (fun p => _include_app p.1 p.2 F)).map Prod.fst).Sublist
      (A.map Prod.fst) := (List.filter_sublist A).map Prod.fst
  have hndc : ((A.filter (fun p => _include_app p.1 p.2 F)).map Prod.fst).Nodup :=
    hnd.sublist hsub
  have hperm : ((plan_groups A F).map Prod.snd).flatten.Perm
      ((A.filter (fun p => _include_app p.1 p.2 F)).map Prod.fst) :=
    build_flatten_perm _ hndc
  refine ⟨fun app cfg => include_app_iff app cfg F, hperm, ?_, ?_, ?_⟩
  · intro name
    constructor
    · rintro ⟨g, hg, hname⟩
      have h1 : name ∈ ((plan_groups A F).map Prod.snd).flatten :=
        List.mem_flatten.mpr ⟨g.2, List.mem_map.mpr ⟨g, hg, rfl⟩, hname⟩
      obtain ⟨p, hp, hpeq⟩ := List.mem_map.mp (hperm.mem_iff.mp h1)
      obtain ⟨hpA, hpinc⟩ := List.mem_filter.mp hp
      refine ⟨p.2, ?_, ?_⟩
      · rw [← hpeq]
        simpa using hpA
      · rw [← hpeq]
        exact hpinc
    · rintro ⟨cfg, hmem, hinc⟩
      have hp : (name, cfg) ∈ A.filter (fun p => _include_app p.1 p.2 F) :=
        List.mem_filter.mpr ⟨hmem, hinc⟩
      have h1 : name ∈ (A.filter (fun p => _include_app p.1 p.2 F)).map Prod.fst :=
        List.mem_map.mpr ⟨(name, cfg), hp, rfl⟩
      obtain ⟨l, hl, hnl⟩ := List.mem_flatten.mp (hperm.mem_iff.mpr h1)
      obtain ⟨g, hg, hgl⟩ := List.mem_map.mp hl
      exact ⟨g, hg, hgl ▸ hnl⟩
  · have hflat : (((plan_groups A F).map Prod.snd).flatten).Nodup :=
      hperm.nodup_iff.mpr hndc
    exact (List.nodup_flatten.mp hflat).2
  · intro g hg
    exact build_mem_sorted hg

theorem plan_groups_partitions_survivors_witness :
    (([(("keystone" : String),
        (⟨"cs:keystone-300", [], ["openstack-origin"]⟩ : AppConfig))].map
      Prod.fst).Nodup) ∧
    ((plan_groups [("keystone", ⟨"cs:keystone-300", [], ["openstack-origin"]⟩)]
        []).map Prod.snd).flatten.Perm
      (([(("keystone" : String),
          (⟨"cs:keystone-300", [], ["openstack-origin"]⟩ : AppConfig))].filter
        (fun p => _include_app p.1 p.2 [])).map Prod.fst) :=
  ⟨by decide,
   (plan_groups_partitions_survivors
     [("keystone", ⟨"cs:keystone-300", [], ["openstack-origin"]⟩)] []
     (by decide)).2.1⟩

/-- C6: the planner's output is always the fixed ordered phase sequence
Database Services, Stateful Services, Core Identity, Control Plane, Data
Plane followed by the sweep-up group; each named phase holds exactly the
surviving applications whose extracted charm name is on that phase's charm
list, the sweep-up group exactly those matching no named group, and every
phase appears even when empty. -/
theorem build_service_groups_fixed_phases (apps : List (String × AppConfig))
    (hnd : (apps.map Prod.fst).Nodup) :
    _build_service_groups apps =
      SERVICE_GROUPS.map (fun pc => (pc.1,
        ((apps.filter (fun p =>
          decide (extract_charm_name_from_url p.2.charm ∈ pc.2))).map
          Prod.fst).insertionSort (· ≤ ·)))
      ++ [("sweep_up",
        ((apps.filter (fun p => !inAnyGroup p)).map Prod.fst).insertionSort (· ≤ ·))] ∧
    (_build_service_groups apps).map Prod.fst =
      ["Database Services", "Stateful Services", "Core Identity",
       "Control Plane", "Data Plane", "sweep_up"] := by
  constructor
  · unfold _build_service_groups
    rw [List.map_append, List.map_map]
    congr 1
    simp only [List.map_cons, List.map_nil]
    rw [sweep_eq apps hnd]
  · rfl

theorem build_service_groups_fixed_phases_witness :
    ((([] : List (String × AppConfig)).map Prod.fst).Nodup) ∧
    (_build_service_groups ([] : List (String × AppConfig))).map Prod.fst =
      ["Database Services", "Stateful Services", "Core Identity",
       "Control Plane", "Data Plane", "sweep_up"] :=
  ⟨by decide, (build_service_groups_fixed_phases [] (by decide)).2⟩

theorem get_process_id_list_witness :
    (1 : Int) ≠ 0 ∧
    get_process_id_list ⟨1, "", "Something went wrong"⟩ true = .error .ProcessIdsFailed :=
  ⟨by decide,
   get_process_id_list_ok_and_failure.2.2.2 1 (by decide) "" "Something went wrong"⟩

end Zaza
